import Mathlib

/-!
Verification of the Jharkhand eco-cultural tourism prototype
(`src/script.js`): the itinerary planner `simulateItinerary` and the
rule-based assistant `assistantRespond`.

JavaScript numbers are modelled as exact rationals (`ℚ`); `Math.round`
is rounding half toward positive infinity; `Math.random()` is an
injected stream of rational draws, consumed one draw per evaluation of
`Math.random() > 0.6` (the `||` in the source short-circuits, so no
draw is consumed when the candidate region is fresh).  The JavaScript
`Array.prototype.sort` is a stable sort (ES2019), modelled by the
stable `List.mergeSort`.  JS `Set` iteration order is insertion order,
so a request tag set is a duplicate-free list.
-/

namespace JharkhandEco

/-- An attraction record (src/script.js lines 4-12). -/
structure Attraction where
  id : ℕ
  name : String
  tags : List String
  region : String
  duration : ℚ
  description : String
deriving DecidableEq

/-- The static catalog `ATTRACTIONS` (src/script.js lines 4-12). -/
def ATTRACTIONS : List Attraction :=
  [ { id := 1, name := "Betla National Park",
      tags := ["nature", "wildlife", "adventure"], region := "Palamu",
      duration := 1, description := "Tigers, forests, safari." },
    { id := 2, name := "Ranchi - Hundru Falls",
      tags := ["nature", "adventure"], region := "Ranchi",
      duration := 1/2, description := "Scenic waterfall and picnic area." },
    { id := 3, name := "Deo Surya Mandir (Deoghar)",
      tags := ["culture", "history"], region := "Deoghar",
      duration := 1, description := "Famous Sun temple and pilgrimage site." },
    { id := 4, name := "Hill Top (Netarhat)",
      tags := ["nature", "relaxation"], region := "Latehar",
      duration := 1, description := "Sunrise viewpoint and quiet hills." },
    { id := 5, name := "Jonha Falls",
      tags := ["nature", "adventure"], region := "Ranchi",
      duration := 3/4, description := "Waterfall with scenic steps." },
    { id := 6, name := "Hazaribagh Wildlife Sanctuary",
      tags := ["wildlife", "nature"], region := "Hazaribagh",
      duration := 3/2, description := "Wildlife, birds, forests." },
    { id := 7, name := "Stone Age Cave Sites (Isko/Peer)",
      tags := ["history", "culture"], region := "Palamu",
      duration := 1, description := "Prehistoric rock art & archaeology." } ]

/-- A scored attraction: the spread of an attraction plus its score
(src/script.js line 54). -/
structure Scored extends Attraction where
  score : ℚ
deriving DecidableEq

/-- One day of the produced plan: a day number and its items (line 87). -/
structure DayPlan where
  day : ℕ
  items : List Scored
deriving DecidableEq

/-- JavaScript `Math.round`: round half toward positive infinity. -/
def jsRound (q : ℚ) : ℤ := ⌊q + 1/2⌋

/-- Score of a single attraction (src/script.js lines 46-52): start at 0,
set to 1 when the requested tag set is empty, add 2 per requested tag the
attraction carries, and when the pace is busy add `1/(duration+0.1)`. -/
def scoreOf (tags : List String) (pace : String) (a : Attraction) : ℚ :=
  let base : ℚ := if tags = [] then 1 else 0
  let afterTags := tags.foldl (fun s t => if a.tags.contains t then s + 2 else s) base
  if pace = "busy" then afterTags + 1 / (a.duration + 1/10) else afterTags

/-- The scored pool: each catalog attraction paired with its computed
score (lines 45-55). -/
def poolOf (catalog : List Attraction) (tags : List String) (pace : String) :
    List Scored :=
  catalog.map (fun a => { toAttraction := a, score := scoreOf tags pace a })

/-- The comparator `(p,q) => q.score - p.score` as the total preorder it
induces: `p` may precede `q` iff `q.score ≤ p.score` (descending). -/
def scoreLE (p q : Scored) : Bool := decide (q.score ≤ p.score)

/-- The ranking `pool.sort((p,q)=>q.score-p.score)` (line 58): a stable
descending sort. -/
def rankedOf (catalog : List Attraction) (tags : List String) (pace : String) :
    List Scored :=
  (poolOf catalog tags pace).mergeSort scoreLE

/-- The per-day rate `perDay` (line 61): 1.2 for relaxed, 3 for busy,
else 2. -/
def perDayOf (pace : String) : ℚ :=
  if pace = "relaxed" then 6/5 else if pace = "busy" then 3 else 2

/-- The target `targetCount = Math.max(1, Math.round(perDay * days))`
(line 62). -/
def targetCountZ (pace : String) (days : ℤ) : ℤ :=
  max 1 (jsRound (perDayOf pace * (days : ℚ)))

/-- The target count as a natural number (it is always ≥ 1). -/
def targetCountN (pace : String) (days : ℤ) : ℕ := (targetCountZ pace days).toNat

/-- The diversity selection loop (lines 65-74).  State: remaining ranked
list, `chosen`, the `regions` set (as a list, `contains`-equivalent), and
the index of the next random draw.  A draw is consumed only when the
region test fails, because `||` short-circuits in the source. -/
def diverseGo (draws : ℕ → ℚ) (target : ℕ) :
    List Scored → List Scored → List String → ℕ → List Scored
  | [], chosen, _, _ => chosen
  | item :: rest, chosen, regions, k =>
    if target ≤ chosen.length then chosen
    else if regions.contains item.region then
      if 3/5 < draws k then
        diverseGo draws target rest (chosen ++ [item]) (regions ++ [item.region]) (k + 1)
      else
        diverseGo draws target rest chosen regions (k + 1)
    else
      diverseGo draws target rest (chosen ++ [item]) (regions ++ [item.region]) k

/-- The fallback fill loop (lines 76-79): append ranked items not already
chosen (`chosen.includes(item)` is reference equality in the source; the
pool objects are pairwise distinct values, which structural equality
matches) until the target is reached. -/
def fallbackGo (target : ℕ) : List Scored → List Scored → List Scored
  | [], chosen => chosen
  | item :: rest, chosen =>
    if target ≤ chosen.length then chosen
    else if chosen.contains item then fallbackGo target rest chosen
    else fallbackGo target rest (chosen ++ [item])

/-- The `chosen` array after both selection passes (lines 65-79). -/
def chosenOf (catalog : List Attraction) (days : ℤ) (tags : List String)
    (pace : String) (draws : ℕ → ℚ) : List Scored :=
  fallbackGo (targetCountN pace days) (rankedOf catalog tags pace)
    (diverseGo draws (targetCountN pace days) (rankedOf catalog tags pace) [] [] 0)

/-- Slots per day, `daySlots = Math.max(1, Math.round(targetCount / days))`
(line 85).
The source recomputes this constant inside the loop; it is only ever
evaluated when `days ≥ 1`, since otherwise the loop body never runs. -/
def daySlotsOf (pace : String) (days : ℤ) : ℕ :=
  (max 1 (jsRound ((targetCountZ pace days : ℚ) / (days : ℚ)))).toNat

/-- The day-bucketing loop `for(let d=1; d<=days; d++)` (lines 82-89):
`d` is the day number, `idx` the running slice offset, `rem` the number
of iterations left (`max 0 days` in total). -/
def buildGo (chosen : List Scored) (daySlots : ℕ) : ℕ → ℕ → ℕ → List DayPlan
  | _, _, 0 => []
  | d, idx, rem + 1 =>
    { day := d, items := (chosen.drop idx).take daySlots } ::
      buildGo chosen daySlots (d + 1) (idx + daySlots) rem

/-- The full planner `simulateItinerary` (lines 43-91), with the
random source injected. -/
def simulateItinerary (catalog : List Attraction) (days : ℤ) (tags : List String)
    (pace : String) (draws : ℕ → ℚ) : List DayPlan :=
  buildGo (chosenOf catalog days tags pace draws) (daySlotsOf pace days) 1 0 days.toNat

/-- All attractions placed into a plan, in output order. -/
def planItems (plan : List DayPlan) : List Scored :=
  (plan.map (fun dp => dp.items)).flatten

/-- Substring test on character lists: does the second list occur
contiguously in the first? -/
def containsSub (pat : List Char) : List Char → Bool
  | [] => pat.isEmpty
  | c :: rest => pat.isPrefixOf (c :: rest) || containsSub pat rest

/-- JavaScript `String.prototype.includes`. -/
def jsIncludes (s pat : String) : Bool := containsSub pat.toList s.toList

/-- JavaScript `String.prototype.toLowerCase`, character by character. -/
def jsToLower (s : String) : String := ⟨s.toList.map Char.toLower⟩

/-- Fallback reply (src/script.js line 139). -/
def fallbackReply : String :=
  "I\x27m sorry, I didn\x27t get that. You can ask for \x27itinerary\x27, \x27attractions\x27, or \x27help\x27."

/-- Itinerary-guidance reply (line 141). -/
def itineraryReply : String :=
  "To generate an itinerary, choose days, interests and click \x27Generate itinerary\x27. I can also suggest a 3-day nature-focused plan."

/-- Attractions-overview reply (line 143). -/
def attractionsReply : String :=
  "I can show popular attractions like Betla National Park, Hundru Falls, Deoghar Sun Temple. Tell me your interest to refine."

/-- Greeting reply (line 145). -/
def greetingReply : String :=
  "Hello! How can I help you plan your trip to Jharkhand?"

/-- Farewell reply (line 147). -/
def farewellReply : String :=
  "You\x27re welcome! Have a great trip."

/-- Canned suggestion reply (line 149). -/
def suggestReply : String :=
  "Suggesting a nature-focused 2-day plan: Day 1 - Betla National Park; Day 2 - Hundru Falls & Netarhat sunrise spot."

/-- The reply computed by `assistantRespond(text, locale)` (lines 136-150).
The locale only decorates the DOM output and the speech synthesis; the
reply text itself never depends on it. -/
def assistantReply (text locale : String) : String :=
  let normalized := jsToLower text
  if jsIncludes normalized "itinerary" then itineraryReply
  else if jsIncludes normalized "attraction" || jsIncludes normalized "attractions" then
    attractionsReply
  else if jsIncludes normalized "hello" || jsIncludes normalized "hi" then greetingReply
  else if jsIncludes normalized "bye" || jsIncludes normalized "thanks" then farewellReply
  else if jsIncludes normalized "suggest" then suggestReply
  else fallbackReply

/-- The responder rule table, written from the words of the spec: an ordered
list of (predicate, reply) pairs, first match wins, fallback otherwise. -/
def respondRules : List ((String → Bool) × String) :=
  [ (fun s => jsIncludes s "itinerary", itineraryReply),
    (fun s => jsIncludes s "attraction" || jsIncludes s "attractions", attractionsReply),
    (fun s => jsIncludes s "hello" || jsIncludes s "hi", greetingReply),
    (fun s => jsIncludes s "bye" || jsIncludes s "thanks", farewellReply),
    (fun s => jsIncludes s "suggest", suggestReply) ]

/-- First-match-wins evaluation of a rule table. -/
def applyRules : List ((String → Bool) × String) → String → String
  | [], _ => fallbackReply
  | r :: rest, s => if r.1 s then r.2 else applyRules rest s

/-- Modelled from the words of the claim for the diversity pass: a candidate is
appended exactly when `chosen` is still below target and either its region
differs from the region of every previously accepted item, or the pending
random draw exceeds 0.6.  The used-regions set is recomputed from the
accepted items instead of being threaded separately. -/
def diverseSpec (draws : ℕ → ℚ) (target : ℕ) :
    List Scored → List Scored → ℕ → List Scored
  | [], chosen, _ => chosen
  | item :: rest, chosen, k =>
    if target ≤ chosen.length then chosen
    else if (chosen.map (fun c => c.region)).contains item.region then
      if 3/5 < draws k then diverseSpec draws target rest (chosen ++ [item]) (k + 1)
      else diverseSpec draws target rest chosen (k + 1)
    else
      diverseSpec draws target rest (chosen ++ [item]) k

/-- A concrete small attraction used to instantiate universally quantified
theorems at a specific input. -/
def sampleAttr : Attraction :=
  { id := 42, name := "Sample", tags := ["nature"], region := "Ranchi",
    duration := 1, description := "sample" }

/-! ## Helper lemmas -/

/-- The tag-matching loop adds exactly 2 per requested tag the attraction carries. -/
theorem foldl_tagScore (atags : List String) (tags : List String) (b : ℚ) :
    tags.foldl (fun s t => if atags.contains t then s + 2 else s) b
      = b + 2 * ((tags.filter (fun t => atags.contains t)).length : ℚ) := by
  induction tags generalizing b with
  | nil => simp
  | cons t ts ih =>
    simp only [List.foldl_cons, List.filter_cons]
    cases h : atags.contains t
    · simp only [h, Bool.false_eq_true, if_false, ih]
    · simp only [h, if_true, ih, List.length_cons]
      push_cast
      ring

/-- Score of an attraction under an empty requested-tag set. -/
theorem scoreOf_empty_tags (pace : String) (a : Attraction) :
    scoreOf [] pace a = 1 + (if pace = "busy" then 1 / (a.duration + 1/10) else 0) := by
  simp only [scoreOf]
  by_cases hp : pace = "busy" <;> simp [hp]

/-! ## Claim theorems -/

/-- C1: for every catalog attraction and request, the computed score equals
(1 if the requested tags are empty, else 0) + 2 × (number of requested tags
also on the attraction) + (1/(duration+0.1) if the pace is busy, else 0);
with non-empty request tags and zero matches the score is exactly the busy
bonus, strictly below what the same attraction scores when no tags are
requested. -/
theorem claim1_score_formula (tags : List String) (pace : String) (a : Attraction) :
    scoreOf tags pace a
        = (if tags = [] then (1 : ℚ) else 0)
            + 2 * ((tags.filter (fun t => a.tags.contains t)).length : ℚ)
            + (if pace = "busy" then 1 / (a.duration + 1/10) else 0)
      ∧ (tags ≠ [] → (tags.filter (fun t => a.tags.contains t)).length = 0 →
          scoreOf tags pace a = (if pace = "busy" then 1 / (a.duration + 1/10) else 0)
            ∧ scoreOf tags pace a < scoreOf [] pace a) := by
  have hmain : scoreOf tags pace a
      = (if tags = [] then (1 : ℚ) else 0)
          + 2 * ((tags.filter (fun t => a.tags.contains t)).length : ℚ)
          + (if pace = "busy" then 1 / (a.duration + 1/10) else 0) := by
    simp only [scoreOf]
    rw [foldl_tagScore]
    by_cases hp : pace = "busy"
    · simp only [hp, if_true]
    · simp only [hp, if_false]
      ring
  refine ⟨hmain, fun hne hzero => ?_⟩
  have hempty := scoreOf_empty_tags pace a
  rw [hmain]
  simp only [hne, if_neg hne, hzero]
  push_cast
  constructor
  · ring
  · rw [hempty]
    by_cases hp : pace = "busy" <;> simp [hp]

/-- Witness for C1 at a concrete input: the sample attraction carries no
requested tag, so its score under a non-empty request is strictly below its
empty-request score. -/
theorem claim1_score_formula_witness :
    ((["culture"] : List String) ≠ []
        ∧ ((["culture"] : List String).filter
            (fun t => sampleAttr.tags.contains t)).length = 0)
      ∧ scoreOf (["culture"]) ("relaxed") sampleAttr
          < scoreOf [] ("relaxed") sampleAttr :=
  ⟨⟨by decide, by decide⟩,
    ((claim1_score_formula (["culture"]) ("relaxed") sampleAttr).2
        (by decide) (by decide)).2⟩

/-- C5: `targetCount = max(1, round(perDay·days))` with `perDay` 1.2 for
relaxed, 3 for busy, and 2 for moderate and for every unrecognised pace;
hence `targetCount ≥ 1` always. -/
theorem claim5_target_count (pace : String) (days : ℤ) :
    targetCountZ pace days = max 1 (jsRound (perDayOf pace * (days : ℚ)))
      ∧ perDayOf ("relaxed") = 6/5
      ∧ perDayOf ("busy") = 3
      ∧ (pace ≠ "relaxed" → pace ≠ "busy" → perDayOf pace = 2)
      ∧ 1 ≤ targetCountZ pace days := by
  refine ⟨rfl, by simp [perDayOf], by simp [perDayOf], fun h1 h2 => ?_, le_max_left 1 _⟩
  simp [perDayOf, h1, h2]

/-- Witness for C5 at a concrete input: an unrecognised pace string falls
back to the moderate per-day rate of 2. -/
theorem claim5_target_count_witness :
    (("sprint" : String) ≠ "relaxed" ∧ ("sprint" : String) ≠ "busy")
      ∧ perDayOf ("sprint") = 2 :=
  ⟨⟨by decide, by decide⟩,
    (claim5_target_count ("sprint") 1).2.2.2.1 (by decide) (by decide)⟩

/-- C7: the responder lowercases the utterance and evaluates the six
containment rules in order with first match winning (itinerary, then
attraction/attractions, then hello/hi, then bye/thanks, then suggest, else
the fallback); the first example hits the itinerary rule even though it
also greets, and an utterance with both a greeting and a farewell gets the
greeting reply. -/
theorem claim7_responder_rules :
    (∀ u l, assistantReply u l = applyRules respondRules (jsToLower u))
      ∧ assistantReply ("Hello there, I need an itinerary") ("en-US") = itineraryReply
      ∧ assistantReply ("hello there and bye") ("en-US") = greetingReply := by
  refine ⟨fun u l => ?_, ?_, ?_⟩
  · simp only [assistantReply, applyRules, respondRules]
  · with_unfolding_all decide
  · with_unfolding_all decide

/-- C10: the responder reply is a pure total function of the utterance
alone; it does not depend on the locale argument at all. -/
theorem claim10_responder_locale_independent (u l1 l2 : String) :
    assistantReply u l1 = assistantReply u l2 := rfl

/-- The diversity pass threads its `regions` set; it always equals the
regions of the accepted items, in order. -/
theorem diverseGo_eq_spec (draws : ℕ → ℚ) (target : ℕ) :
    ∀ (pool chosen : List Scored) (k : ℕ),
      diverseGo draws target pool chosen (chosen.map (fun c => c.region)) k
        = diverseSpec draws target pool chosen k := by
  intro pool
  induction pool with
  | nil => intro chosen k; rfl
  | cons item rest ih =>
    intro chosen k
    simp only [diverseGo, diverseSpec]
    by_cases h1 : target ≤ chosen.length
    · simp only [if_pos h1]
    · simp only [if_neg h1]
      by_cases h2 : (chosen.map (fun c => c.region)).contains item.region
      · simp only [h2, if_true]
        by_cases h3 : 3/5 < draws k
        · simp only [if_pos h3]
          have := ih (chosen ++ [item]) (k + 1)
          simpa [List.map_append] using this
        · simp only [if_neg h3]
          exact ih chosen (k + 1)
      · simp only [h2, Bool.false_eq_true, if_false]
        have := ih (chosen ++ [item]) k
        simpa [List.map_append] using this

/-- C3: the diversity pass, walking the ranked list in order with injected
random draws, appends a candidate exactly when `chosen` is still below the
target and either its region differs from the region of every previously
accepted item or the pending draw exceeds 0.6, stopping at the target or
the end of the list: the source loop (threading a region set) equals the
claim-level recursion that recomputes used regions from accepted items. -/
theorem claim3_diverse_selection (draws : ℕ → ℚ) (target : ℕ) (pool : List Scored) :
    diverseGo draws target pool [] [] 0 = diverseSpec draws target pool [] 0 := by
  have h := diverseGo_eq_spec draws target pool [] 0
  simpa using h

/-- For non-positive day counts, the day-bucketing loop never runs. -/
theorem claim4_nonpos_days_empty_plan (catalog : List Attraction) (tags : List String)
    (pace : String) (draws : ℕ → ℚ) (days : ℤ) (h : days ≤ 0) :
    simulateItinerary catalog days tags pace draws = [] := by
  have h0 : days.toNat = 0 := Int.toNat_of_nonpos h
  simp [simulateItinerary, h0, buildGo]

/-- Witness for the amended C4 at a concrete input. -/
theorem claim4_nonpos_days_empty_plan_witness :
    ((-3 : ℤ) ≤ 0)
      ∧ simulateItinerary ATTRACTIONS (-3) [] ("moderate") (fun _ => 0) = [] :=
  ⟨by decide,
    claim4_nonpos_days_empty_plan ATTRACTIONS [] ("moderate") (fun _ => 0) (-3) (by decide)⟩

/-- Counterexample to C4 as stated: with days = 0 the Planner returns a
Plan with zero DayPlans, not the days = 1 Plan — no internal clamping. -/
theorem claim4_no_internal_clamp_counterexample :
    simulateItinerary ATTRACTIONS 0 [] ("moderate") (fun _ => 0) = []
      ∧ simulateItinerary ATTRACTIONS 1 [] ("moderate") (fun _ => 0)
          ≠ simulateItinerary ATTRACTIONS 0 [] ("moderate") (fun _ => 0) := by
  have h : rankedOf ATTRACTIONS [] ("moderate") = poolOf ATTRACTIONS [] ("moderate") :=
    List.mergeSort_of_sorted (by with_unfolding_all decide)
  constructor
  · simp only [simulateItinerary]
    with_unfolding_all decide
  · simp only [simulateItinerary, chosenOf, h]
    with_unfolding_all decide

/-- C9: the ranking sorts the scored pool descending by score, and items of
equal score keep their catalog-relative order (the sort is stable), so the
ranked list restricted to any one score level is exactly that same
sublist at that score level. -/
theorem claim9_ranking (catalog : List Attraction) (tags : List String) (pace : String) :
    (rankedOf catalog tags pace).Pairwise (fun p q => q.score ≤ p.score)
      ∧ ∀ s : ℚ,
          (rankedOf catalog tags pace).filter (fun p => decide (p.score = s))
            = (poolOf catalog tags pace).filter (fun p => decide (p.score = s)) := by
  have htrans : ∀ a b c : Scored,
      scoreLE a b = true → scoreLE b c = true → scoreLE a c = true := by
    intro a b c h1 h2
    simp only [scoreLE, decide_eq_true_eq] at h1 h2 ⊢
    exact le_trans h2 h1
  have htotal : ∀ a b : Scored, (scoreLE a b || scoreLE b a) = true := by
    intro a b
    simp only [scoreLE, Bool.or_eq_true, decide_eq_true_eq]
    exact le_total b.score a.score
  constructor
  · have hs := List.sorted_mergeSort htrans htotal (poolOf catalog tags pace)
    refine hs.imp ?_
    intro p q hle
    simpa [scoreLE] using hle
  · intro s
    have hmem : ∀ a ∈ (poolOf catalog tags pace).filter
        (fun p => decide (p.score = s)), a.score = s := by
      intro a ha
      have h2 := (List.mem_filter.mp ha).2
      simpa using h2
    have hcpw : ((poolOf catalog tags pace).filter
        (fun p => decide (p.score = s))).Pairwise (fun a b => scoreLE a b = true) := by
      apply List.pairwise_of_forall_mem_list
      intro a ha b hb
      simp [scoreLE, hmem a ha, hmem b hb]
    have hsub : ((poolOf catalog tags pace).filter
          (fun p => decide (p.score = s))).Sublist (rankedOf catalog tags pace) :=
      List.sublist_mergeSort htrans htotal hcpw (List.filter_sublist _)
    have hsub2 : ((poolOf catalog tags pace).filter
          (fun p => decide (p.score = s))).Sublist
        ((rankedOf catalog tags pace).filter (fun p => decide (p.score = s))) := by
      have h2 := hsub.filter (fun p => decide (p.score = s))
      rwa [List.filter_eq_self.mpr (fun a ha => (List.mem_filter.mp ha).2)] at h2
    have hlen : ((rankedOf catalog tags pace).filter
          (fun p => decide (p.score = s))).length
        = ((poolOf catalog tags pace).filter (fun p => decide (p.score = s))).length :=
      ((List.mergeSort_perm (poolOf catalog tags pace) scoreLE).filter _).length_eq
    exact (hsub2.eq_of_length hlen.symm).symm

/-- The bucketing loop produces one DayPlan per remaining iteration. -/
theorem buildGo_length (chosen : List Scored) (s : ℕ) :
    ∀ (rem d idx : ℕ), (buildGo chosen s d idx rem).length = rem := by
  intro rem
  induction rem with
  | zero => intro d idx; rfl
  | succ n ih => intro d idx; simp [buildGo, ih]

/-- The i-th DayPlan produced by the bucketing loop. -/
theorem buildGo_get (chosen : List Scored) (s : ℕ) :
    ∀ (rem d idx i : ℕ) (h : i < (buildGo chosen s d idx rem).length),
      (buildGo chosen s d idx rem).get ⟨i, h⟩
        = { day := d + i, items := (chosen.drop (idx + i * s)).take s } := by
  intro rem
  induction rem with
  | zero =>
    intro d idx i h
    rw [buildGo_length] at h
    exact absurd h (Nat.not_lt_zero i)
  | succ n ih =>
    intro d idx i h
    cases i with
    | zero => simp [buildGo]
    | succ j =>
      have h2 : j < (buildGo chosen s (d + 1) (idx + s) n).length := by
        rw [buildGo_length]
        rw [buildGo_length] at h
        omega
      have hstep : (buildGo chosen s d idx (n + 1)).get ⟨j + 1, h⟩
          = (buildGo chosen s (d + 1) (idx + s) n).get ⟨j, h2⟩ := by
        simp [buildGo]
      rw [hstep, ih (d + 1) (idx + s) j h2]
      have e1 : d + 1 + j = d + (j + 1) := by omega
      have e2 : idx + s + j * s = idx + (j + 1) * s := by ring
      rw [e1, e2]

/-- A bucketing over an empty `chosen` yields only empty item lists. -/
theorem buildGo_nil_items (s : ℕ) :
    ∀ (rem d idx : ℕ) (dp : DayPlan), dp ∈ buildGo [] s d idx rem → dp.items = [] := by
  intro rem
  induction rem with
  | zero => intro d idx dp h; simp [buildGo] at h
  | succ n ih =>
    intro d idx dp h
    simp only [buildGo, List.mem_cons] at h
    rcases h with h | h
    · subst h; simp
    · exact ih _ _ dp h

/-- C8: for days ≥ 1 the Plan has exactly `days` DayPlans, the i-th (from 0)
carrying day number i+1; a day whose slice starts past the end of `chosen`
carries an empty item list, and with an empty catalog every item list
is empty — never an error. -/
theorem claim8_day_structure (catalog : List Attraction) (days : ℤ) (tags : List String)
    (pace : String) (draws : ℕ → ℚ) (h : 1 ≤ days) :
    (simulateItinerary catalog days tags pace draws).length = days.toNat
      ∧ (∀ i (hi : i < (simulateItinerary catalog days tags pace draws).length),
          ((simulateItinerary catalog days tags pace draws).get ⟨i, hi⟩).day = i + 1
            ∧ ((chosenOf catalog days tags pace draws).length ≤ i * daySlotsOf pace days →
                ((simulateItinerary catalog days tags pace draws).get ⟨i, hi⟩).items = []))
      ∧ (catalog = [] →
          ∀ dp ∈ simulateItinerary catalog days tags pace draws, dp.items = []) := by
  refine ⟨buildGo_length _ _ _ _ _, fun i hi => ?_, fun hcat => ?_⟩
  · have hget := buildGo_get (chosenOf catalog days tags pace draws) (daySlotsOf pace days)
      days.toNat 1 0 i hi
    constructor
    · show ((buildGo _ _ _ _ _).get ⟨i, hi⟩).day = i + 1
      rw [hget]
      dsimp only
      omega
    · intro hexh
      show ((buildGo _ _ _ _ _).get ⟨i, hi⟩).items = []
      rw [hget]
      dsimp only
      rw [Nat.zero_add, List.drop_eq_nil_of_le hexh, List.take_nil]
  · subst hcat
    have hchosen : chosenOf [] days tags pace draws = [] := by
      simp [chosenOf, rankedOf, poolOf, List.mergeSort_nil, diverseGo, fallbackGo]
    intro dp hdp
    have hdp2 : dp ∈ buildGo [] (daySlotsOf pace days) 1 0 days.toNat := by
      simpa [simulateItinerary, hchosen] using hdp
    exact buildGo_nil_items _ _ _ _ dp hdp2

/-- Witness for C8 at a concrete input. -/
theorem claim8_day_structure_witness :
    ((1 : ℤ) ≤ 2)
      ∧ (simulateItinerary ATTRACTIONS 2 [] ("moderate") (fun _ => 0)).length
          = (2 : ℤ).toNat :=
  ⟨by decide,
    (claim8_day_structure ATTRACTIONS 2 [] ("moderate") (fun _ => 0) (by decide)).1⟩

/-- Boolean containment agrees with list membership. -/
theorem contains_true_iff {α} [DecidableEq α] {c : List α} {x : α} :
    c.contains x = true ↔ x ∈ c := List.elem_iff

/-- A filter and its complement split the length of a list. -/
theorem length_filter_not {α} (p : α → Bool) (l : List α) :
    (l.filter p).length + (l.filter (fun x => !(p x))).length = l.length := by
  induction l with
  | nil => rfl
  | cons a l ih =>
    cases h : p a <;> simp only [List.filter_cons, h] <;> simp <;> omega

/-- On a duplicate-free list, filtering by membership in a sublist recovers
exactly that sublist. -/
theorem filter_contains_eq_of_sublist {α} [DecidableEq α] :
    ∀ {l c : List α}, l.Nodup → c.Sublist l →
      l.filter (fun x => c.contains x) = c := by
  intro l c hn hs
  induction hs with
  | slnil => rfl
  | @cons c l a hs ih =>
    have hnc := List.nodup_cons.mp hn
    have ha : a ∉ c := fun hmem => hnc.1 (hs.subset hmem)
    rw [List.filter_cons, if_neg (by simpa [contains_true_iff] using ha)]
    exact ih hnc.2
  | @cons₂ c l a hs ih =>
    have hnc := List.nodup_cons.mp hn
    rw [List.filter_cons, if_pos (by simp [contains_true_iff])]
    have hcongr : l.filter (fun x => (a :: c).contains x)
        = l.filter (fun x => c.contains x) := by
      apply List.filter_congr
      intro x hx
      have hxa : x ≠ a := fun he => hnc.1 (he ▸ hx)
      simp only [List.contains_cons]
      have : (x == a) = false := by simpa using hxa
      simp [this]
    rw [hcongr, ih hnc.2]

/-- The diversity pass appends a sublist of its input pool to `chosen`. -/
theorem diverseGo_append (draws : ℕ → ℚ) (target : ℕ) :
    ∀ (pool chosen : List Scored) (regions : List String) (k : ℕ),
      ∃ s, diverseGo draws target pool chosen regions k = chosen ++ s
        ∧ s.Sublist pool := by
  intro pool
  induction pool with
  | nil => intro chosen regions k; exact ⟨[], by simp [diverseGo], List.nil_sublist _⟩
  | cons item rest ih =>
    intro chosen regions k
    simp only [diverseGo]
    by_cases h1 : target ≤ chosen.length
    · exact ⟨[], by simp [h1], List.nil_sublist _⟩
    · simp only [if_neg h1]
      by_cases h2 : regions.contains item.region
      · simp only [h2, if_true]
        by_cases h3 : 3/5 < draws k
        · simp only [if_pos h3]
          obtain ⟨s, hs, hsub⟩ := ih (chosen ++ [item]) (regions ++ [item.region]) (k + 1)
          exact ⟨item :: s, by simpa using hs, List.Sublist.cons₂ item hsub⟩
        · simp only [if_neg h3]
          obtain ⟨s, hs, hsub⟩ := ih chosen regions (k + 1)
          exact ⟨s, hs, List.Sublist.cons item hsub⟩
      · simp only [h2, Bool.false_eq_true, if_false]
        obtain ⟨s, hs, hsub⟩ := ih (chosen ++ [item]) (regions ++ [item.region]) k
        exact ⟨item :: s, by simpa using hs, List.Sublist.cons₂ item hsub⟩

/-- The diversity pass never grows `chosen` beyond the target. -/
theorem diverseGo_length_le (draws : ℕ → ℚ) (target : ℕ) :
    ∀ (pool chosen : List Scored) (regions : List String) (k : ℕ),
      chosen.length ≤ target →
      (diverseGo draws target pool chosen regions k).length ≤ target := by
  intro pool
  induction pool with
  | nil => intro chosen regions k h; simpa [diverseGo] using h
  | cons item rest ih =>
    intro chosen regions k h
    simp only [diverseGo]
    by_cases h1 : target ≤ chosen.length
    · simpa [h1] using h
    · simp only [if_neg h1]
      by_cases h2 : regions.contains item.region
      · simp only [h2, if_true]
        by_cases h3 : 3/5 < draws k
        · simp only [if_pos h3]
          exact ih _ _ _ (by simp; omega)
        · simp only [if_neg h3]
          exact ih _ _ _ h
      · simp only [h2, Bool.false_eq_true, if_false]
        exact ih _ _ _ (by simp; omega)

/-- The fallback pass preserves freedom from duplicates. -/
theorem fallbackGo_nodup (target : ℕ) :
    ∀ (pool chosen : List Scored), chosen.Nodup →
      (fallbackGo target pool chosen).Nodup := by
  intro pool
  induction pool with
  | nil => intro chosen h; simpa [fallbackGo] using h
  | cons item rest ih =>
    intro chosen h
    simp only [fallbackGo]
    by_cases h1 : target ≤ chosen.length
    · simpa [h1] using h
    · simp only [if_neg h1]
      by_cases h2 : chosen.contains item
      · simp only [h2, if_true]
        exact ih chosen h
      · simp only [h2, Bool.false_eq_true, if_false]
        refine ih _ ?_
        have hni : item ∉ chosen := fun hmem => by
          rw [contains_true_iff.mpr hmem] at h2
          exact h2 rfl
        simpa [List.nodup_append] using ⟨h, hni⟩

/-- Everything the fallback pass returns comes from `chosen` or the pool. -/
theorem fallbackGo_mem (target : ℕ) :
    ∀ (pool chosen x : _), x ∈ fallbackGo target pool chosen →
      x ∈ chosen ∨ x ∈ pool := by
  intro pool
  induction pool with
  | nil => intro chosen x h; exact Or.inl (by simpa [fallbackGo] using h)
  | cons item rest ih =>
    intro chosen x h
    simp only [fallbackGo] at h
    by_cases h1 : target ≤ chosen.length
    · rw [if_pos h1] at h
      exact Or.inl h
    · rw [if_neg h1] at h
      by_cases h2 : chosen.contains item
      · simp only [h2, if_true] at h
        rcases ih chosen x h with h3 | h3
        · exact Or.inl h3
        · exact Or.inr (List.mem_cons_of_mem item h3)
      · simp only [h2, Bool.false_eq_true, if_false] at h
        rcases ih (chosen ++ [item]) x h with h3 | h3
        · rcases List.mem_append.mp h3 with h4 | h4
          · exact Or.inl h4
          · exact Or.inr (by simpa using Or.inl (List.mem_singleton.mp h4))
        · exact Or.inr (List.mem_cons_of_mem item h3)

/-- Length of the fallback pass output: it fills `chosen` with the pool
items not yet present, until the target is reached or the pool runs out. -/
theorem fallbackGo_length (target : ℕ) :
    ∀ (pool chosen : List Scored), pool.Nodup → chosen.length ≤ target →
      (fallbackGo target pool chosen).length
        = min target
            (chosen.length + (pool.filter (fun x => !(chosen.contains x))).length) := by
  intro pool
  induction pool with
  | nil =>
    intro chosen hn h
    simp only [fallbackGo, List.filter_nil, List.length_nil, Nat.add_zero]
    omega
  | cons item rest ih =>
    intro chosen hn h
    have hnc := List.nodup_cons.mp hn
    simp only [fallbackGo, List.filter_cons]
    by_cases h1 : target ≤ chosen.length
    · have he : chosen.length = target := le_antisymm h h1
      simp only [if_pos h1]
      omega
    · simp only [if_neg h1]
      by_cases h2 : chosen.contains item
      · simp only [h2, Bool.not_true, Bool.false_eq_true, if_false, if_true]
        exact ih chosen hnc.2 h
      · have hni : item ∉ chosen := fun hmem => by
          rw [contains_true_iff.mpr hmem] at h2
          exact h2 rfl
        simp only [h2, Bool.not_false, Bool.false_eq_true, if_false, if_true]
        have hrw : rest.filter (fun x => !((chosen ++ [item]).contains x))
            = rest.filter (fun x => !(chosen.contains x)) := by
          apply List.filter_congr
          intro x hx
          have hxa : x ≠ item := fun he => hnc.1 (he ▸ hx)
          have h3 : ((chosen ++ [item]).contains x) = (chosen.contains x) := by
            cases hcx : chosen.contains x
            · have : x ∉ chosen ++ [item] := by
                simp only [List.mem_append, List.mem_singleton]
                rintro (hc | hc)
                · rw [contains_true_iff.mpr hc] at hcx
                  simp at hcx
                · exact hxa hc
              simpa [contains_true_iff] using this
            · have : x ∈ chosen ++ [item] :=
                List.mem_append.mpr (Or.inl (contains_true_iff.mp hcx))
              exact contains_true_iff.mpr this
          rw [h3]
        have hlen : (chosen ++ [item]).length = chosen.length + 1 := by simp
        have hle2 : (chosen ++ [item]).length ≤ target := by
          rw [hlen]; omega
        rw [ih (chosen ++ [item]) hnc.2 hle2, hrw, hlen]
        simp only [List.length_cons]
        omega

/-- Flattening the bucketed plan yields a contiguous prefix slice of
`chosen`: the bucketing places `rem · daySlots` consecutive items. -/
theorem planItems_buildGo (chosen : List Scored) (s : ℕ) :
    ∀ (rem d idx : ℕ),
      planItems (buildGo chosen s d idx rem) = (chosen.drop idx).take (rem * s) := by
  intro rem
  induction rem with
  | zero => intro d idx; simp [buildGo, planItems]
  | succ n ih =>
    intro d idx
    simp only [buildGo, planItems, List.map_cons, List.flatten_cons]
    have hrec := ih (d + 1) (idx + s)
    simp only [planItems] at hrec
    rw [hrec]
    have hdd : chosen.drop (idx + s) = (chosen.drop idx).drop s := by
      rw [List.drop_drop]
    rw [hdd, ← List.take_add]
    have he : s + n * s = (n + 1) * s := by ring
    rw [he]

/-- The scored pool carries exactly the catalog ids, in order. -/
theorem poolOf_ids (catalog : List Attraction) (tags : List String) (pace : String) :
    (poolOf catalog tags pace).map (fun c => c.id) = catalog.map (fun a => a.id) := by
  simp only [poolOf, List.map_map]
  rfl

/-- Under distinct catalog ids, the ranked pool is duplicate-free, both as
values and as ids. -/
theorem rankedOf_nodup (catalog : List Attraction) (tags : List String) (pace : String)
    (hid : (catalog.map (fun a => a.id)).Nodup) :
    (rankedOf catalog tags pace).Nodup
      ∧ ((rankedOf catalog tags pace).map (fun c => c.id)).Nodup := by
  have hcat : catalog.Nodup := List.Nodup.of_map _ hid
  have hpool : (poolOf catalog tags pace).Nodup := by
    refine List.Nodup.map ?_ hcat
    intro a b hab
    exact congrArg Scored.toAttraction hab
  have hperm : (rankedOf catalog tags pace).Perm (poolOf catalog tags pace) :=
    List.mergeSort_perm _ _
  refine ⟨hperm.nodup_iff.mpr hpool, ?_⟩
  have h2 : ((rankedOf catalog tags pace).map (fun c => c.id)).Perm
      (catalog.map (fun a => a.id)) := by
    have h3 := hperm.map (fun c : Scored => c.id)
    rwa [poolOf_ids] at h3
  exact h2.nodup_iff.mpr hid

/-- The `chosen` list after both passes: duplicate-free, drawn from the
ranked pool, of length `min targetCount (catalog size)`. -/
theorem chosenOf_facts (catalog : List Attraction) (days : ℤ) (tags : List String)
    (pace : String) (draws : ℕ → ℚ)
    (hid : (catalog.map (fun a => a.id)).Nodup) :
    (chosenOf catalog days tags pace draws).Nodup
      ∧ (∀ x ∈ chosenOf catalog days tags pace draws, x ∈ rankedOf catalog tags pace)
      ∧ (chosenOf catalog days tags pace draws).length
          = min (targetCountN pace days) catalog.length := by
  obtain ⟨hrn, hrid⟩ := rankedOf_nodup catalog tags pace hid
  obtain ⟨s, hs, hsub⟩ := diverseGo_append draws (targetCountN pace days)
    (rankedOf catalog tags pace) [] [] 0
  have hch0 : diverseGo draws (targetCountN pace days)
      (rankedOf catalog tags pace) [] [] 0 = s := by simpa using hs
  have hs_nodup : s.Nodup := hsub.nodup hrn
  have hlen0 : s.length ≤ targetCountN pace days := by
    have h4 := diverseGo_length_le draws (targetCountN pace days)
      (rankedOf catalog tags pace) [] [] 0 (by simp)
    rwa [hch0] at h4
  refine ⟨?_, ?_, ?_⟩
  · show (chosenOf catalog days tags pace draws).Nodup
    simp only [chosenOf, hch0]
    exact fallbackGo_nodup _ _ _ hs_nodup
  · intro x hx
    simp only [chosenOf, hch0] at hx
    rcases fallbackGo_mem _ _ _ x hx with h | h
    · exact hsub.subset h
    · exact h
  · simp only [chosenOf, hch0]
    rw [fallbackGo_length _ _ _ hrn hlen0]
    have hfil : (rankedOf catalog tags pace).filter (fun x => s.contains x) = s :=
      filter_contains_eq_of_sublist hrn hsub
    have hsplit := length_filter_not (fun x => s.contains x) (rankedOf catalog tags pace)
    rw [hfil] at hsplit
    have hrlen : (rankedOf catalog tags pace).length = catalog.length := by
      simp [rankedOf, List.length_mergeSort, poolOf]
    omega

/-- C6: with distinct catalog ids, `chosen` never contains the same
attraction twice — its id list is duplicate-free — and hence no attraction
appears twice across the returned Plan either. -/
theorem claim6_no_duplicate_attractions (catalog : List Attraction) (days : ℤ)
    (tags : List String) (pace : String) (draws : ℕ → ℚ)
    (hid : (catalog.map (fun a => a.id)).Nodup) :
    ((chosenOf catalog days tags pace draws).map (fun c => c.id)).Nodup
      ∧ ((planItems (simulateItinerary catalog days tags pace draws)).map
          (fun c => c.id)).Nodup := by
  obtain ⟨hnd, hsubm, hlen⟩ := chosenOf_facts catalog days tags pace draws hid
  obtain ⟨hrn, hrid⟩ := rankedOf_nodup catalog tags pace hid
  have hinj := List.inj_on_of_nodup_map hrid
  have hch : ((chosenOf catalog days tags pace draws).map (fun c => c.id)).Nodup :=
    List.Nodup.map_on (fun x hx y hy hf => hinj (hsubm x hx) (hsubm y hy) hf) hnd
  refine ⟨hch, ?_⟩
  have hplan : planItems (simulateItinerary catalog days tags pace draws)
      = (chosenOf catalog days tags pace draws).take
          (days.toNat * daySlotsOf pace days) := by
    simp only [simulateItinerary]
    rw [planItems_buildGo, List.drop_zero]
  rw [hplan]
  exact ((List.take_sublist _ _).map _).nodup hch

/-- Witness for C6 at a concrete input. -/
theorem claim6_no_duplicate_attractions_witness :
    ((ATTRACTIONS.map (fun a => a.id)).Nodup)
      ∧ (((chosenOf ATTRACTIONS 2 [] ("moderate") (fun _ => 0)).map
            (fun c => c.id)).Nodup
          ∧ ((planItems (simulateItinerary ATTRACTIONS 2 [] ("moderate")
                (fun _ => 0))).map (fun c => c.id)).Nodup) :=
  ⟨by decide,
    claim6_no_duplicate_attractions ATTRACTIONS 2 [] ("moderate") (fun _ => 0) (by decide)⟩

/-- Amended C2: the total number of items across all DayPlans equals
min(min(targetCount, catalog size), days · daySlots): the day-bucketing
keeps only the first `days · daySlots` chosen attractions, so when
round(targetCount/days) · days < targetCount the trailing chosen
attractions are dropped and the total falls short of
min(targetCount, catalog size). -/
theorem claim2_total_items (catalog : List Attraction) (days : ℤ) (tags : List String)
    (pace : String) (draws : ℕ → ℚ)
    (hid : (catalog.map (fun a => a.id)).Nodup) (hd : 1 ≤ days) :
    (planItems (simulateItinerary catalog days tags pace draws)).length
      = min (min (targetCountN pace days) catalog.length)
          (days.toNat * daySlotsOf pace days) := by
  obtain ⟨hnd, hsubm, hlen⟩ := chosenOf_facts catalog days tags pace draws hid
  simp only [simulateItinerary]
  rw [planItems_buildGo, List.drop_zero, List.length_take, hlen]
  exact min_comm _ _

/-- Witness for the amended C2 at a concrete input. -/
theorem claim2_total_items_witness :
    ((ATTRACTIONS.map (fun a => a.id)).Nodup ∧ (1 : ℤ) ≤ 2)
      ∧ (planItems (simulateItinerary ATTRACTIONS 2 [] ("moderate") (fun _ => 0))).length
          = min (min (targetCountN ("moderate") 2) ATTRACTIONS.length)
              ((2 : ℤ).toNat * daySlotsOf ("moderate") 2) :=
  ⟨⟨by decide, by decide⟩,
    claim2_total_items ATTRACTIONS 2 [] ("moderate") (fun _ => 0) (by decide) (by decide)⟩

/-- Counterexample to C2 as stated: with the 7-attraction catalog, 3 days,
no tags and relaxed pace, targetCount is 4 and all 4 fit the catalog, yet
daySlots = max(1, round(4/3)) = 1 gives only 3 placed items: one chosen
attraction is dropped by the day-bucketing. -/
theorem claim2_total_items_counterexample :
    (planItems (simulateItinerary ATTRACTIONS 3 [] ("relaxed") (fun _ => 0))).length = 3
      ∧ min (targetCountN ("relaxed") 3) ATTRACTIONS.length = 4 := by
  have h : rankedOf ATTRACTIONS [] ("relaxed") = poolOf ATTRACTIONS [] ("relaxed") :=
    List.mergeSort_of_sorted (by with_unfolding_all decide)
  constructor
  · simp only [simulateItinerary, chosenOf, h]
    with_unfolding_all decide
  · with_unfolding_all decide

end JharkhandEco
